import Mathlib

/-!
Verification of the peppy repository (a fuzzer that produces minimal
examples of each pep8 error category).

Shallow embedding conventions, all taken from `peppy/__main__.py` and
`peppy/utils.py`:

* Python strings are modelled as `List Char` (`PyStr`); `len` is
  `List.length`, slicing is `take`/`drop`.
* Python `range(a, b)` is `pyRange a b`; `range(m, 0, -1)` is `rangeDown m`.
* md5 content hashes (used as cache keys, dedup signatures and archive file
  names) are modelled by the content itself, i.e. hashing is assumed
  collision-free; equality of digests is equality of texts.
* Python dicts (`errors_cache`, `best_examples`) are association lists with
  insertion-order-preserving update (`alistSet`), matching dict semantics.
* The external pep8 checker is an oracle: `pep8` models the output parsing
  of the real subprocess call, and in the driver model the whole
  write-temp-file/run-checker/parse pipeline is a parameter
  `classify : PyStr → List Cat`; `is_valid_source` (CPython `compile`) is a
  parameter `isValid : PyStr → Bool`.
* Filesystem effects of the driver are explicit state (`DState`): the
  recycling archive is the set of archived texts, the examples directory is
  an association list from category to file content, console output is a
  list of messages (most recent first), and `toolCalls` counts external
  checker invocations.  Temporary files (`source_in_file`) are self-cleaning
  on every path and are not part of the persistent state.
* The `while simplified` loops of `find_minimal_example_from_source` are
  written with explicit fuel; fuel `best.length + 1` strictly bounds the
  number of improving passes because every adopted candidate is strictly
  shorter, so the fuelled function agrees with the source's loop.
* The driver's `assert` statements are modelled by returning `Option`:
  `none` is an assertion failure aborting the run.
-/

abbrev PyStr := List Char

abbrev Cat := List Char

/-- Python `range(a, b)` (ascending, empty when `b ≤ a`). -/
def pyRange (a b : Nat) : List Nat :=
  (List.range (b - a)).map (fun j => a + j)

/-- Python `range(m, 0, -1)`: the list `[m, m-1, ..., 1]`. -/
def rangeDown : Nat → List Nat
  | 0 => []
  | k + 1 => (k + 1) :: rangeDown k

/-- Association-list lookup, first match wins (Python dict read). -/
def alistGet {α β : Type} [DecidableEq α] (k : α) : List (α × β) → Option β
  | [] => none
  | (k', v) :: rest => if k' = k then some v else alistGet k rest

/-- Association-list update: replace in place, or append at the end
(Python dict write, preserving insertion order). -/
def alistSet {α β : Type} [DecidableEq α] (k : α) (v : β) :
    List (α × β) → List (α × β)
  | [] => [(k, v)]
  | (k', v') :: rest =>
      if k' = k then (k, v) :: rest else (k', v') :: alistSet k v rest

theorem alistGet_set_self {α β : Type} [DecidableEq α] (k : α) (v : β)
    (l : List (α × β)) : alistGet k (alistSet k v l) = some v := by
  induction l with
  | nil => simp [alistGet, alistSet]
  | cons p rest ih =>
      obtain ⟨k', v'⟩ := p
      by_cases h : k' = k <;> simp [alistGet, alistSet, h, ih]

theorem alistGet_set_ne {α β : Type} [DecidableEq α] {k k' : α} (v : β)
    (l : List (α × β)) (h : k' ≠ k) :
    alistGet k' (alistSet k v l) = alistGet k' l := by
  have hk : ¬ k = k' := fun hh => h hh.symm
  induction l with
  | nil => simp [alistGet, alistSet, hk]
  | cons p rest ih =>
      obtain ⟨k₀, v₀⟩ := p
      by_cases h0 : k₀ = k
      · subst h0
        simp [alistGet, alistSet, hk]
      · simp [alistGet, alistSet, h0, ih]

/-- Python `s.split('\n')`: always returns at least one piece. -/
def splitNl : List Char → List (List Char)
  | [] => [[]]
  | c :: cs =>
      if c = '\n' then [] :: splitNl cs
      else
        match splitNl cs with
        | [] => [[c]]
        | l :: ls => (c :: l) :: ls

/-- Python `'\n'.join(lines)`. -/
def joinNl : List (List Char) → List Char
  | [] => []
  | [l] => l
  | l :: ls => l ++ '\n' :: joinNl ls

theorem splitNl_ne_nil (s : List Char) : splitNl s ≠ [] := by
  cases s with
  | nil => simp [splitNl]
  | cons c cs =>
      by_cases h : c = '\n'
      · simp [splitNl, h]
      · simp only [splitNl, h, if_false]
        cases splitNl cs <;> simp

/-- A newline-free text splits into exactly one line, itself. -/
theorem splitNl_no_newline {s : List Char} (h : '\n' ∉ s) :
    splitNl s = [s] := by
  induction s with
  | nil => simp [splitNl]
  | cons c cs ih =>
      have hc : c ≠ '\n' := fun hc => h (hc ▸ List.mem_cons_self c cs)
      have hcs : '\n' ∉ cs := fun hm => h (List.mem_cons_of_mem c hm)
      simp [splitNl, hc, ih hcs]

/-- `line_based_shrinking` from `peppy/__main__.py`: prefixes for
`i in range(1, len(lines) - 1)`, then suffixes for
`i in range(len(lines) - 1, 0, -1)`, then contiguous deletions of
`delete_length in range(len(lines) // 2, 0, -1)` at every start index. -/
def line_based_shrinking (s : PyStr) : List PyStr :=
  let lines := splitNl s
  ((pyRange 1 (lines.length - 1)).map (fun i => joinNl (lines.take i)))
  ++ ((rangeDown (lines.length - 1)).map (fun i => joinNl (lines.drop i)))
  ++ ((rangeDown (lines.length / 2)).flatMap (fun dl =>
        (List.range lines.length).map
          (fun i => joinNl (lines.take i ++ lines.drop (i + dl)))))

/-- `character_based_shrinking` from `peppy/__main__.py`: for
`l in range(10, 0, -1)` and every start index, delete the window
`[i, i+l)` of characters. -/
def character_based_shrinking (s : PyStr) : List PyStr :=
  (rangeDown 10).flatMap (fun l =>
    (List.range s.length).map (fun i => s.take i ++ s.drop (i + l)))

/-- Python `\s` / `str.isspace` on the ASCII range (the checker output is
ascii-decoded before parsing). -/
def isPyWs (c : Char) : Bool :=
  c = ' ' || c = '\t' || c = '\n' || c = '\r' || c = '\x0b' || c = '\x0c' ||
  c = '\x1c' || c = '\x1d' || c = '\x1e' || c = '\x1f'

/-- Python `str.strip()`. -/
def pyStrip (s : List Char) : List Char :=
  ((s.dropWhile isPyWs).reverse.dropWhile isPyWs).reverse

/-- Matching of the regex `^[^\s]+ ([^\s]+) ` (`ERROR_CODE` in the source)
against a line, returning the captured group: a maximal non-whitespace
token, a literal space, a maximal non-whitespace token (captured), a
literal space.  Greedy matching of `[^\s]+` is deterministic here because
a shorter token would be followed by a non-whitespace character, which can
never match the literal space. -/
def matchErrorCode (l : List Char) : Option (List Char) :=
  let t1 := l.takeWhile (fun c => !isPyWs c)
  let r1 := l.dropWhile (fun c => !isPyWs c)
  if t1 = [] then none
  else
    match r1 with
    | ' ' :: r2 =>
        let t2 := r2.takeWhile (fun c => !isPyWs c)
        let r3 := r2.dropWhile (fun c => !isPyWs c)
        if t2 = [] then none
        else
          match r3 with
          | ' ' :: _ => some t2
          | _ => none
    | _ => none

/-- Outcome of running the external pep8 checker on a file: `ok` is a zero
exit status (with whatever it printed), `err` is a `CalledProcessError`
carrying the captured output. -/
inductive ToolOutcome : Type
  | ok (output : List Char) : ToolOutcome
  | err (output : List Char) : ToolOutcome

/-- The parsing loop of `pep8` in the source: strip each line, skip blank
lines, `assert` that `ERROR_CODE` matches, and collect the captured
category tokens.  A failing assertion aborts (`none`). -/
def parseLines : List (List Char) → Option (List Cat)
  | [] => some []
  | l :: rest =>
      let l' := pyStrip l
      if l' = [] then parseLines rest
      else
        match matchErrorCode l' with
        | none => none
        | some c =>
            match parseLines rest with
            | none => none
            | some cs => some (c :: cs)

/-- `pep8` from `peppy/__main__.py`: the set of pep8 error categories
scraped from the checker's output; empty on a zero exit status. -/
def pep8 : ToolOutcome → Option (List Cat)
  | ToolOutcome.ok _ => some []
  | ToolOutcome.err out => parseLines (splitNl out)

/-- Result of one full iteration of the `for simpler in shrinker(...)` loop
inside `find_minimal_example_from_source`: final threaded state, the `seen`
set, the adopted candidate when the loop hit `break` (`simplified = True`),
and instrumentation traces of the texts on which `is_valid_source`
(`vEvals`) and the target predicate `is_example` (`pEvals`) were actually
evaluated, in evaluation order. -/
structure PassOut (σ : Type) where
  st : σ
  seen : List PyStr
  adopted : Option PyStr
  vEvals : List PyStr
  pEvals : List PyStr

/-- One pass of the inner candidate loop of
`find_minimal_example_from_source`, mirroring the source's skip order:
empty text, already-seen signature, not strictly shorter, syntactically
invalid (evaluated), archive via `note`, the redundant second length guard,
then the predicate (evaluated); on success adopt and break. -/
def shrinkPass {σ : Type} (isValid : PyStr → Bool) (note : σ → PyStr → σ)
    (isExample : σ → PyStr → Bool × σ) (best : PyStr) :
    List PyStr → List PyStr → σ → PassOut σ
  | [], seen, st => ⟨st, seen, none, [], []⟩
  | simpler :: rest, seen, st =>
      if simpler = [] then shrinkPass isValid note isExample best rest seen st
      else if simpler ∈ seen then
        shrinkPass isValid note isExample best rest seen st
      else if best.length ≤ simpler.length then
        shrinkPass isValid note isExample best rest (simpler :: seen) st
      else if isValid simpler then
        let st1 := note st simpler
        if best.length ≤ simpler.length then
          let r := shrinkPass isValid note isExample best rest (simpler :: seen) st1
          ⟨r.st, r.seen, r.adopted, simpler :: r.vEvals, r.pEvals⟩
        else
          let pr := isExample st1 simpler
          if pr.1 then ⟨pr.2, simpler :: seen, some simpler, [simpler], [simpler]⟩
          else
            let r := shrinkPass isValid note isExample best rest (simpler :: seen) pr.2
            ⟨r.st, r.seen, r.adopted, simpler :: r.vEvals, simpler :: r.pEvals⟩
      else
        let r := shrinkPass isValid note isExample best rest (simpler :: seen) st
        ⟨r.st, r.seen, r.adopted, simpler :: r.vEvals, r.pEvals⟩

/-- Result of the whole shrink engine (or of one strategy's `while
simplified` loop): threaded state, `seen`, current best, whether the
`len(current_best) <= max_size` early return fired, and evaluation
traces. -/
structure EngOut (σ : Type) where
  st : σ
  seen : List PyStr
  best : PyStr
  early : Bool
  vEvals : List PyStr
  pEvals : List PyStr

/-- The `while simplified` loop of `find_minimal_example_from_source` for
one strategy, with explicit fuel.  Each improving pass strictly shrinks the
current best, so fuel `best.length + 1` (as used below) never runs out. -/
def shrinkWhileF {σ : Type} (isValid : PyStr → Bool) (note : σ → PyStr → σ)
    (isExample : σ → PyStr → Bool × σ) (maxSize : Nat)
    (shrinker : PyStr → List PyStr) :
    Nat → σ → List PyStr → PyStr → EngOut σ
  | 0, st, seen, best => ⟨st, seen, best, false, [], []⟩
  | fuel + 1, st, seen, best =>
      if best.length ≤ maxSize then ⟨st, seen, best, true, [], []⟩
      else
        let r := shrinkPass isValid note isExample best (shrinker best) seen st
        match r.adopted with
        | some nb =>
            let o := shrinkWhileF isValid note isExample maxSize shrinker fuel
              r.st r.seen nb
            ⟨o.st, o.seen, o.best, o.early, r.vEvals ++ o.vEvals,
              r.pEvals ++ o.pEvals⟩
        | none => ⟨r.st, r.seen, best, false, r.vEvals, r.pEvals⟩

/-- `find_minimal_example_from_source` from `peppy/__main__.py`: run the
line-based strategy to a fixed point, then (unless the size floor fired)
the character-based strategy, with one `seen` set shared across both. -/
def find_minimal_example_from_source {σ : Type} (isValid : PyStr → Bool)
    (note : σ → PyStr → σ) (isExample : σ → PyStr → Bool × σ) (maxSize : Nat)
    (st : σ) (source : PyStr) : EngOut σ :=
  let o1 := shrinkWhileF isValid note isExample maxSize line_based_shrinking
    (source.length + 1) st [] source
  if o1.early then o1
  else
    let o2 := shrinkWhileF isValid note isExample maxSize
      character_based_shrinking (o1.best.length + 1) o1.st o1.seen o1.best
    ⟨o2.st, o2.seen, o2.best, o2.early, o1.vEvals ++ o2.vEvals,
      o1.pEvals ++ o2.pEvals⟩

theorem shrinkPass_adopted {σ : Type} (isValid : PyStr → Bool)
    (note : σ → PyStr → σ) (isExample : σ → PyStr → Bool × σ) (best : PyStr)
    (cands : List PyStr) :
    ∀ (seen : List PyStr) (st : σ) (nb : PyStr),
      (shrinkPass isValid note isExample best cands seen st).adopted = some nb →
      nb.length < best.length ∧ isValid nb = true := by
  induction cands with
  | nil => intro seen st nb h; simp [shrinkPass] at h
  | cons simpler rest ih =>
      intro seen st nb h
      simp only [shrinkPass] at h
      split_ifs at h with h1 h2 h3 h4 h5
      · exact ih seen st nb h
      · exact ih seen st nb h
      · exact ih (simpler :: seen) st nb h
      · obtain rfl : simpler = nb := Option.some.inj h
        exact ⟨Nat.lt_of_not_le h3, by simpa using h4⟩
      · exact ih (simpler :: seen) (isExample (note st simpler) simpler).2 nb h
      · exact ih (simpler :: seen) st nb h

theorem shrinkPass_adopted_pred {σ : Type} (isValid : PyStr → Bool)
    (note : σ → PyStr → σ) (isExample : σ → PyStr → Bool × σ)
    (p : PyStr → Bool) (hp : ∀ st s, (isExample st s).1 = p s)
    (best : PyStr) (cands : List PyStr) :
    ∀ (seen : List PyStr) (st : σ) (nb : PyStr),
      (shrinkPass isValid note isExample best cands seen st).adopted = some nb →
      p nb = true := by
  induction cands with
  | nil => intro seen st nb h; simp [shrinkPass] at h
  | cons simpler rest ih =>
      intro seen st nb h
      simp only [shrinkPass] at h
      split_ifs at h with h1 h2 h3 h4 h5
      · exact ih seen st nb h
      · exact ih seen st nb h
      · exact ih (simpler :: seen) st nb h
      · obtain rfl : simpler = nb := Option.some.inj h
        rw [← hp (note st simpler) simpler]
        simpa using h5
      · exact ih (simpler :: seen) (isExample (note st simpler) simpler).2 nb h
      · exact ih (simpler :: seen) st nb h

theorem shrinkPass_state {σ α : Type} (isValid : PyStr → Bool)
    (note : σ → PyStr → σ) (isExample : σ → PyStr → Bool × σ) (g : σ → α)
    (hnote : ∀ st s, g (note st s) = g st)
    (hex : ∀ st s, g (isExample st s).2 = g st)
    (best : PyStr) (cands : List PyStr) :
    ∀ (seen : List PyStr) (st : σ),
      g (shrinkPass isValid note isExample best cands seen st).st = g st := by
  induction cands with
  | nil => intro seen st; simp [shrinkPass]
  | cons simpler rest ih =>
      intro seen st
      simp only [shrinkPass]
      split_ifs with h1 h2 h3 h4 h5
      · exact ih seen st
      · exact ih seen st
      · exact ih (simpler :: seen) st
      · show g (isExample (note st simpler) simpler).2 = g st
        rw [hex, hnote]
      · show g (shrinkPass isValid note isExample best rest (simpler :: seen)
            (isExample (note st simpler) simpler).2).st = g st
        rw [ih, hex, hnote]
      · exact ih (simpler :: seen) st

theorem shrinkPass_seen_evals {σ : Type} (isValid : PyStr → Bool)
    (note : σ → PyStr → σ) (isExample : σ → PyStr → Bool × σ) (best : PyStr)
    (cands : List PyStr) :
    ∀ (seen : List PyStr) (st : σ),
      (∀ x, x ∈ seen →
        x ∈ (shrinkPass isValid note isExample best cands seen st).seen) ∧
      (shrinkPass isValid note isExample best cands seen st).vEvals.Nodup ∧
      (∀ x, x ∈ (shrinkPass isValid note isExample best cands seen st).vEvals →
        x ∉ seen) ∧
      (∀ x, x ∈ (shrinkPass isValid note isExample best cands seen st).vEvals →
        x ∈ (shrinkPass isValid note isExample best cands seen st).seen) ∧
      List.Sublist (shrinkPass isValid note isExample best cands seen st).pEvals
        (shrinkPass isValid note isExample best cands seen st).vEvals := by
  induction cands with
  | nil => intro seen st; simp [shrinkPass]
  | cons simpler rest ih =>
      intro seen st
      simp only [shrinkPass]
      split_ifs with h1 h2 h3 h4 h5
      · exact ih seen st
      · exact ih seen st
      · obtain ⟨m, nd, fr, elv, su⟩ := ih (simpler :: seen) st
        exact ⟨fun x hx => m x (List.mem_cons_of_mem _ hx), nd,
          fun x hx hm => fr x hx (List.mem_cons_of_mem _ hm), elv, su⟩
      · refine ⟨fun x hx => List.mem_cons_of_mem _ hx, List.nodup_singleton _,
          ?_, ?_, List.Sublist.refl _⟩
        · intro x hx hm
          obtain rfl : x = simpler := List.mem_singleton.mp hx
          exact h2 hm
        · intro x hx
          obtain rfl : x = simpler := List.mem_singleton.mp hx
          exact List.mem_cons_self _ _
      · obtain ⟨m, nd, fr, elv, su⟩ :=
          ih (simpler :: seen) (isExample (note st simpler) simpler).2
        refine ⟨fun x hx => m x (List.mem_cons_of_mem _ hx), ?_, ?_, ?_,
          List.Sublist.cons₂ _ su⟩
        · exact List.nodup_cons.mpr
            ⟨fun hm => fr simpler hm (List.mem_cons_self _ _), nd⟩
        · intro x hx hm
          rcases List.mem_cons.mp hx with rfl | hx'
          · exact h2 hm
          · exact fr x hx' (List.mem_cons_of_mem _ hm)
        · intro x hx
          rcases List.mem_cons.mp hx with rfl | hx'
          · exact m x (List.mem_cons_self _ _)
          · exact elv x hx'
      · obtain ⟨m, nd, fr, elv, su⟩ := ih (simpler :: seen) st
        refine ⟨fun x hx => m x (List.mem_cons_of_mem _ hx), ?_, ?_, ?_,
          List.Sublist.cons _ su⟩
        · exact List.nodup_cons.mpr
            ⟨fun hm => fr simpler hm (List.mem_cons_self _ _), nd⟩
        · intro x hx hm
          rcases List.mem_cons.mp hx with rfl | hx'
          · exact h2 hm
          · exact fr x hx' (List.mem_cons_of_mem _ hm)
        · intro x hx
          rcases List.mem_cons.mp hx with rfl | hx'
          · exact m x (List.mem_cons_self _ _)
          · exact elv x hx'

theorem shrinkWhileF_best_le {σ : Type} (isValid : PyStr → Bool)
    (note : σ → PyStr → σ) (isExample : σ → PyStr → Bool × σ) (maxSize : Nat)
    (shrinker : PyStr → List PyStr) (fuel : Nat) :
    ∀ (st : σ) (seen : List PyStr) (best : PyStr),
      (shrinkWhileF isValid note isExample maxSize shrinker fuel
        st seen best).best.length ≤ best.length := by
  induction fuel with
  | zero => intro st seen best; simp [shrinkWhileF]
  | succ fuel ih =>
      intro st seen best
      simp only [shrinkWhileF]
      split_ifs with h1
      · exact Nat.le_refl _
      · cases hr : (shrinkPass isValid note isExample best
            (shrinker best) seen st).adopted with
        | none => exact Nat.le_refl _
        | some nb =>
            have hlt := (shrinkPass_adopted isValid note isExample best
              (shrinker best) seen st nb hr).1
            exact Nat.le_trans (ih _ _ nb) (Nat.le_of_lt hlt)

theorem shrinkWhileF_pred {σ : Type} (isValid : PyStr → Bool)
    (note : σ → PyStr → σ) (isExample : σ → PyStr → Bool × σ)
    (p : PyStr → Bool) (hp : ∀ st s, (isExample st s).1 = p s)
    (maxSize : Nat) (shrinker : PyStr → List PyStr) (fuel : Nat) :
    ∀ (st : σ) (seen : List PyStr) (best : PyStr),
      (shrinkWhileF isValid note isExample maxSize shrinker fuel
        st seen best).best = best ∨
      (isValid (shrinkWhileF isValid note isExample maxSize shrinker fuel
          st seen best).best = true ∧
        p (shrinkWhileF isValid note isExample maxSize shrinker fuel
          st seen best).best = true) := by
  induction fuel with
  | zero => intro st seen best; simp [shrinkWhileF]
  | succ fuel ih =>
      intro st seen best
      simp only [shrinkWhileF]
      split_ifs with h1
      · exact Or.inl rfl
      · cases hr : (shrinkPass isValid note isExample best
            (shrinker best) seen st).adopted with
        | none => exact Or.inl rfl
        | some nb =>
            have hv := (shrinkPass_adopted isValid note isExample best
              (shrinker best) seen st nb hr).2
            have hpnb := shrinkPass_adopted_pred isValid note isExample p hp
              best (shrinker best) seen st nb hr
            rcases ih _ _ nb with h | h
            · exact Or.inr ⟨by rw [h]; exact hv, by rw [h]; exact hpnb⟩
            · exact Or.inr h

theorem shrinkWhileF_state {σ α : Type} (isValid : PyStr → Bool)
    (note : σ → PyStr → σ) (isExample : σ → PyStr → Bool × σ) (g : σ → α)
    (hnote : ∀ st s, g (note st s) = g st)
    (hex : ∀ st s, g (isExample st s).2 = g st)
    (maxSize : Nat) (shrinker : PyStr → List PyStr) (fuel : Nat) :
    ∀ (st : σ) (seen : List PyStr) (best : PyStr),
      g (shrinkWhileF isValid note isExample maxSize shrinker fuel
        st seen best).st = g st := by
  induction fuel with
  | zero => intro st seen best; simp [shrinkWhileF]
  | succ fuel ih =>
      intro st seen best
      simp only [shrinkWhileF]
      split_ifs with h1
      · rfl
      · cases hr : (shrinkPass isValid note isExample best
            (shrinker best) seen st).adopted with
        | none =>
            exact shrinkPass_state isValid note isExample g hnote hex best
              (shrinker best) seen st
        | some nb =>
            exact (ih _ _ nb).trans (shrinkPass_state isValid note isExample g
              hnote hex best (shrinker best) seen st)

theorem shrinkWhileF_seen_evals {σ : Type} (isValid : PyStr → Bool)
    (note : σ → PyStr → σ) (isExample : σ → PyStr → Bool × σ) (maxSize : Nat)
    (shrinker : PyStr → List PyStr) (fuel : Nat) :
    ∀ (st : σ) (seen : List PyStr) (best : PyStr),
      (∀ x, x ∈ seen → x ∈ (shrinkWhileF isValid note isExample maxSize
        shrinker fuel st seen best).seen) ∧
      (shrinkWhileF isValid note isExample maxSize shrinker fuel
        st seen best).vEvals.Nodup ∧
      (∀ x, x ∈ (shrinkWhileF isValid note isExample maxSize shrinker fuel
        st seen best).vEvals → x ∉ seen) ∧
      (∀ x, x ∈ (shrinkWhileF isValid note isExample maxSize shrinker fuel
        st seen best).vEvals → x ∈ (shrinkWhileF isValid note isExample
          maxSize shrinker fuel st seen best).seen) ∧
      List.Sublist (shrinkWhileF isValid note isExample maxSize shrinker fuel
        st seen best).pEvals
        (shrinkWhileF isValid note isExample maxSize shrinker fuel
          st seen best).vEvals := by
  induction fuel with
  | zero =>
      intro st seen best
      simp [shrinkWhileF]
  | succ fuel ih =>
      intro st seen best
      simp only [shrinkWhileF]
      split_ifs with h1
      · simp
      · cases hr : (shrinkPass isValid note isExample best
            (shrinker best) seen st).adopted with
        | none =>
            exact shrinkPass_seen_evals isValid note isExample best
              (shrinker best) seen st
        | some nb =>
            obtain ⟨m1, nd1, fr1, in1, su1⟩ := shrinkPass_seen_evals isValid
              note isExample best (shrinker best) seen st
            obtain ⟨m2, nd2, fr2, in2, su2⟩ := ih
              (shrinkPass isValid note isExample best
                (shrinker best) seen st).st
              (shrinkPass isValid note isExample best
                (shrinker best) seen st).seen nb
            refine ⟨fun x hx => m2 x (m1 x hx), ?_, ?_, ?_,
              List.Sublist.append su1 su2⟩
            · refine List.nodup_append.mpr ⟨nd1, nd2, ?_⟩
              intro a ha hb
              exact fr2 a hb (in1 a ha)
            · intro x hx hs
              rcases List.mem_append.mp hx with hx' | hx'
              · exact fr1 x hx' hs
              · exact fr2 x hx' (m1 x hs)
            · intro x hx
              rcases List.mem_append.mp hx with hx' | hx'
              · exact m2 x (in1 x hx')
              · exact in2 x hx'

theorem find_minimal_length_le {σ : Type} (isValid : PyStr → Bool)
    (note : σ → PyStr → σ) (isExample : σ → PyStr → Bool × σ) (maxSize : Nat)
    (st : σ) (source : PyStr) :
    (find_minimal_example_from_source isValid note isExample maxSize
      st source).best.length ≤ source.length := by
  simp only [find_minimal_example_from_source]
  split_ifs with h1
  · exact shrinkWhileF_best_le isValid note isExample maxSize
      line_based_shrinking (source.length + 1) st [] source
  · exact Nat.le_trans
      (shrinkWhileF_best_le isValid note isExample maxSize
        character_based_shrinking _ _ _ _)
      (shrinkWhileF_best_le isValid note isExample maxSize
        line_based_shrinking (source.length + 1) st [] source)

theorem find_minimal_pred {σ : Type} (isValid : PyStr → Bool)
    (note : σ → PyStr → σ) (isExample : σ → PyStr → Bool × σ)
    (p : PyStr → Bool) (hp : ∀ st s, (isExample st s).1 = p s)
    (maxSize : Nat) (st : σ) (source : PyStr) :
    (find_minimal_example_from_source isValid note isExample maxSize
      st source).best = source ∨
    (isValid (find_minimal_example_from_source isValid note isExample maxSize
        st source).best = true ∧
      p (find_minimal_example_from_source isValid note isExample maxSize
        st source).best = true) := by
  simp only [find_minimal_example_from_source]
  split_ifs with h1
  · exact shrinkWhileF_pred isValid note isExample p hp maxSize
      line_based_shrinking (source.length + 1) st [] source
  · rcases shrinkWhileF_pred isValid note isExample p hp maxSize
        character_based_shrinking _ _ _ _ with h | h
    · rw [h]
      exact shrinkWhileF_pred isValid note isExample p hp maxSize
        line_based_shrinking (source.length + 1) st [] source
    · exact Or.inr h

theorem find_minimal_state {σ α : Type} (isValid : PyStr → Bool)
    (note : σ → PyStr → σ) (isExample : σ → PyStr → Bool × σ) (g : σ → α)
    (hnote : ∀ st s, g (note st s) = g st)
    (hex : ∀ st s, g (isExample st s).2 = g st)
    (maxSize : Nat) (st : σ) (source : PyStr) :
    g (find_minimal_example_from_source isValid note isExample maxSize
      st source).st = g st := by
  simp only [find_minimal_example_from_source]
  split_ifs with h1
  · exact shrinkWhileF_state isValid note isExample g hnote hex maxSize
      line_based_shrinking (source.length + 1) st [] source
  · exact (shrinkWhileF_state isValid note isExample g hnote hex maxSize
      character_based_shrinking _ _ _ _).trans
      (shrinkWhileF_state isValid note isExample g hnote hex maxSize
        line_based_shrinking (source.length + 1) st [] source)

theorem nodup_evals_append {v1 p1 v2 p2 s1 : List PyStr}
    (nd1 : v1.Nodup) (nd2 : v2.Nodup)
    (in1 : ∀ x, x ∈ v1 → x ∈ s1) (fr2 : ∀ x, x ∈ v2 → x ∉ s1)
    (su1 : List.Sublist p1 v1) (su2 : List.Sublist p2 v2) :
    (v1 ++ v2).Nodup ∧ (p1 ++ p2).Nodup ∧
      List.Sublist (p1 ++ p2) (v1 ++ v2) := by
  have hnd : (v1 ++ v2).Nodup := by
    refine List.nodup_append.mpr ⟨nd1, nd2, ?_⟩
    intro a ha hb
    exact fr2 a hb (in1 a ha)
  exact ⟨hnd, (List.Sublist.append su1 su2).nodup hnd,
    List.Sublist.append su1 su2⟩

theorem find_minimal_evals {σ : Type} (isValid : PyStr → Bool)
    (note : σ → PyStr → σ) (isExample : σ → PyStr → Bool × σ) (maxSize : Nat)
    (st : σ) (source : PyStr) :
    (find_minimal_example_from_source isValid note isExample maxSize
      st source).vEvals.Nodup ∧
    (find_minimal_example_from_source isValid note isExample maxSize
      st source).pEvals.Nodup ∧
    List.Sublist
      (find_minimal_example_from_source isValid note isExample maxSize
        st source).pEvals
      (find_minimal_example_from_source isValid note isExample maxSize
        st source).vEvals := by
  simp only [find_minimal_example_from_source]
  split_ifs with h1
  · obtain ⟨m1, nd1, fr1, in1, su1⟩ := shrinkWhileF_seen_evals isValid note
      isExample maxSize line_based_shrinking (source.length + 1) st [] source
    exact ⟨nd1, su1.nodup nd1, su1⟩
  · obtain ⟨m1, nd1, fr1, in1, su1⟩ := shrinkWhileF_seen_evals isValid note
      isExample maxSize line_based_shrinking (source.length + 1) st [] source
    obtain ⟨m2, nd2, fr2, in2, su2⟩ := shrinkWhileF_seen_evals isValid note
      isExample maxSize character_based_shrinking
      ((shrinkWhileF isValid note isExample maxSize line_based_shrinking
        (source.length + 1) st [] source).best.length + 1)
      (shrinkWhileF isValid note isExample maxSize line_based_shrinking
        (source.length + 1) st [] source).st
      (shrinkWhileF isValid note isExample maxSize line_based_shrinking
        (source.length + 1) st [] source).seen
      (shrinkWhileF isValid note isExample maxSize line_based_shrinking
        (source.length + 1) st [] source).best
    obtain ⟨a, b, c⟩ := nodup_evals_append nd1 nd2 in1 fr2 su1 su2
    exact ⟨a, b, c⟩

/-- Console messages printed by `investigate_pep8_status` (the engine's
per-step shrink progress lines are not modelled). -/
inductive Msg : Type
  | header : Msg
  | cats (errors : List Cat) : Msg
  | clean : Msg
  | smaller (error : Cat) : Msg
  | isNew (error : Cat) : Msg
deriving DecidableEq

/-- The whole observable state of a `Peppy` run: the two dict caches, the
recycling archive (set of archived texts), the examples directory (category
to file content), plus instrumentation: the chronological trace of example
file writes, the number of external checker invocations, and console
output (most recent message first). -/
structure DState : Type where
  errors_cache : List (PyStr × List Cat)
  best_examples : List (Cat × PyStr)
  recycling : List PyStr
  examplesFS : List (Cat × PyStr)
  writes : List (Cat × PyStr)
  toolCalls : Nat
  output : List Msg
deriving DecidableEq

/-- The state of a freshly constructed `Peppy` object (empty caches) with
empty directories. -/
def initState : DState :=
  ⟨[], [], [], [], [], 0, []⟩

/-- `Peppy.note_source`: archive the text in the recycling directory under
its content hash unless that file already exists. -/
def note_source (st : DState) (source : PyStr) : DState :=
  if source ∈ st.recycling then st
  else { st with recycling := source :: st.recycling }

/-- The `for error in result: ...` loop of `Peppy.errors_in_source`:
record the text as best example for each reported category that has no
recorded example yet or whose recorded example is strictly longer. -/
def updateBest (source : PyStr) :
    List Cat → List (Cat × PyStr) → List (Cat × PyStr)
  | [], best => best
  | e :: rest, best =>
      updateBest source rest
        (match alistGet e best with
         | none => alistSet e source best
         | some v =>
             if source.length < v.length then alistSet e source best else best)

/-- `Peppy.errors_in_source`: memoized classification.  On a cache hit the
memoized set is returned with no side effect at all; on a miss the text is
archived, the external checker runs (`classify`, counted in `toolCalls`),
the result is memoized and the best-example registry is updated. -/
def errors_in_source (classify : PyStr → List Cat) (st : DState)
    (source : PyStr) : List Cat × DState :=
  match alistGet source st.errors_cache with
  | some r => (r, st)
  | none =>
      let st1 := note_source st source
      let result := classify source
      let st2 := { st1 with
        toolCalls := st1.toolCalls + 1,
        errors_cache := alistSet source result st1.errors_cache,
        best_examples := updateBest source result st1.best_examples }
      (result, st2)

/-- The stateful predicate `lambda source: error in self.errors_in_source(source)`
passed to the shrink engine by `investigate_pep8_status`. -/
def driverIsExample (classify : PyStr → List Cat) (error : Cat)
    (st : DState) (t : PyStr) : Bool × DState :=
  let r := errors_in_source classify st t
  (decide (error ∈ r.1), r.2)

/-- One scan of `list(self.best_examples.items())` in the fixed-point loop
of `investigate_pep8_status`: archive each snapshot entry, skip it when the
persisted example file is already no larger, otherwise print, minimize,
`assert` the result did not grow (`none` on failure) and overwrite the
persisted file. -/
def driverScan (classify : PyStr → List Cat) (isValid : PyStr → Bool)
    (maxSize : Nat) :
    List (Cat × PyStr) → DState → Bool → Option (DState × Bool)
  | [], st, changed => some (st, changed)
  | (error, source) :: rest, st, changed =>
      let st1 := note_source st source
      match alistGet error st1.examplesFS with
      | some existing =>
          if existing.length ≤ source.length then
            driverScan classify isValid maxSize rest st1 changed
          else
            let st2 := { st1 with output := Msg.smaller error :: st1.output }
            let eng := find_minimal_example_from_source isValid note_source
              (driverIsExample classify error) maxSize st2 source
            if eng.best.length ≤ source.length then
              driverScan classify isValid maxSize rest
                { eng.st with
                  examplesFS := alistSet error eng.best eng.st.examplesFS,
                  writes := eng.st.writes ++ [(error, eng.best)] } true
            else none
      | none =>
          let st2 := { st1 with output := Msg.isNew error :: st1.output }
          let eng := find_minimal_example_from_source isValid note_source
            (driverIsExample classify error) maxSize st2 source
          if eng.best.length ≤ source.length then
            driverScan classify isValid maxSize rest
              { eng.st with
                examplesFS := alistSet error eng.best eng.st.examplesFS,
                writes := eng.st.writes ++ [(error, eng.best)] } true
          else none

/-- The `while changed` fixed-point loop of `investigate_pep8_status`, with
fuel (the source's loop terminates by exhaustion of improvements; fuel only
cuts the run short, which is sound for all safety statements below). -/
def driverLoop (classify : PyStr → List Cat) (isValid : PyStr → Bool)
    (maxSize : Nat) : Nat → DState → Option DState
  | 0, st => some st
  | fuel + 1, st =>
      match driverScan classify isValid maxSize st.best_examples st false with
      | none => none
      | some (st', changed) =>
          if changed then driverLoop classify isValid maxSize fuel st'
          else some st'

/-- `Peppy.investigate_pep8_status` on a file whose text is `source`:
print the header, silently skip invalid sources, classify, report `clean`
and stop for an empty classification, otherwise report the categories and
run the fixed-point loop. -/
def investigate_pep8_status (classify : PyStr → List Cat)
    (isValid : PyStr → Bool) (maxSize : Nat) (fuel : Nat) (st : DState)
    (source : PyStr) : Option DState :=
  let st0 := { st with output := Msg.header :: st.output }
  if isValid source = false then some st0
  else
    let r := errors_in_source classify st0 source
    if r.1 = [] then some { r.2 with output := Msg.clean :: r.2.output }
    else
      let st1 := { r.2 with output := Msg.cats r.1 :: r.2.output }
      driverLoop classify isValid maxSize fuel st1

theorem errors_in_source_idem (classify : PyStr → List Cat) (st : DState)
    (source : PyStr) :
    errors_in_source classify (errors_in_source classify st source).2 source =
      errors_in_source classify st source := by
  simp only [errors_in_source]
  cases hget : alistGet source st.errors_cache with
  | some r => simp [errors_in_source, hget]
  | none =>
      simp only [errors_in_source, alistGet_set_self]

/-- Whether the `for error in result` loop of `errors_in_source` would
replace the recorded best example for category `c` by the incoming text:
yes when no example is recorded or the incoming text is strictly
shorter. -/
def bestUpdateTakes (best : List (Cat × PyStr)) (source : PyStr) (c : Cat) :
    Bool :=
  match alistGet c best with
  | none => true
  | some v => decide (source.length < v.length)

theorem bestUpdateTakes_congr {b1 b2 : List (Cat × PyStr)} (source : PyStr)
    (c : Cat) (h : alistGet c b1 = alistGet c b2) :
    bestUpdateTakes b1 source c = bestUpdateTakes b2 source c := by
  simp only [bestUpdateTakes, h]

theorem alistGet_updateBest (source : PyStr) :
    ∀ (result : List Cat) (best : List (Cat × PyStr)) (c : Cat),
      alistGet c (updateBest source result best) =
        if c ∈ result ∧ bestUpdateTakes best source c = true
        then some source else alistGet c best := by
  intro result
  induction result with
  | nil => intro best c; simp [updateBest]
  | cons e rest ih =>
      intro best c
      simp only [updateBest]
      cases hget : alistGet e best with
      | none =>
          dsimp only
          rw [ih]
          by_cases hce : c = e
          · subst hce
            have h1 : alistGet c (alistSet c source best) = some source :=
              alistGet_set_self c source best
            have h2 : bestUpdateTakes (alistSet c source best) source c
                = false := by
              simp [bestUpdateTakes, h1]
            have h3 : bestUpdateTakes best source c = true := by
              simp [bestUpdateTakes, hget]
            simp [h1, h2, h3]
          · have h1 : alistGet c (alistSet e source best) = alistGet c best :=
              alistGet_set_ne source best hce
            have h2 := bestUpdateTakes_congr source c h1
            rw [h1, h2]
            simp [List.mem_cons, hce]
      | some v =>
          dsimp only
          by_cases hlt : source.length < v.length
          · rw [if_pos hlt, ih]
            by_cases hce : c = e
            · subst hce
              have h1 : alistGet c (alistSet c source best) = some source :=
                alistGet_set_self c source best
              have h2 : bestUpdateTakes (alistSet c source best) source c
                  = false := by
                simp [bestUpdateTakes, h1]
              have h3 : bestUpdateTakes best source c = true := by
                simp [bestUpdateTakes, hget, hlt]
              simp [h1, h2, h3]
            · have h1 : alistGet c (alistSet e source best) = alistGet c best :=
                alistGet_set_ne source best hce
              have h2 := bestUpdateTakes_congr source c h1
              rw [h1, h2]
              simp [List.mem_cons, hce]
          · rw [if_neg hlt, ih]
            by_cases hce : c = e
            · subst hce
              have h3 : bestUpdateTakes best source c = false := by
                simp [bestUpdateTakes, hget, hlt]
              simp [h3]
            · simp [List.mem_cons, hce]

theorem alistGet_updateBest_mono (source : PyStr) (result : List Cat)
    (best : List (Cat × PyStr)) (c : Cat) (v v' : PyStr)
    (hv : alistGet c best = some v)
    (hv' : alistGet c (updateBest source result best) = some v') :
    v'.length ≤ v.length := by
  rw [alistGet_updateBest] at hv'
  split_ifs at hv' with hc
  · obtain rfl : source = v' := Option.some.inj hv'
    have := hc.2
    simp only [bestUpdateTakes, hv] at this
    exact Nat.le_of_lt (of_decide_eq_true this)
  · rw [hv] at hv'
    obtain rfl : v = v' := Option.some.inj hv'
    exact Nat.le_refl _

theorem alistGet_updateBest_sound (classify : PyStr → List Cat)
    (source : PyStr) (best : List (Cat × PyStr))
    (hbest : ∀ c v, alistGet c best = some v → c ∈ classify v) (c : Cat)
    (v : PyStr)
    (hv : alistGet c (updateBest source (classify source) best) = some v) :
    c ∈ classify v := by
  rw [alistGet_updateBest] at hv
  split_ifs at hv with hc
  · obtain rfl : source = v := Option.some.inj hv
    exact hc.1
  · exact hbest c v hv

theorem matchErrorCode_nil : matchErrorCode [] = none := rfl

theorem parseLines_none_iff : ∀ ls : List (List Char),
    parseLines ls = none ↔
      ∃ l, l ∈ ls ∧ pyStrip l ≠ [] ∧ matchErrorCode (pyStrip l) = none := by
  intro ls
  induction ls with
  | nil => simp [parseLines]
  | cons l rest ih =>
      simp only [parseLines]
      by_cases hb : pyStrip l = []
      · rw [if_pos hb, ih]
        constructor
        · rintro ⟨l', hm, hnb, hnm⟩
          exact ⟨l', List.mem_cons_of_mem _ hm, hnb, hnm⟩
        · rintro ⟨l', hm, hnb, hnm⟩
          rcases List.mem_cons.mp hm with rfl | hm'
          · exact absurd hb hnb
          · exact ⟨l', hm', hnb, hnm⟩
      · rw [if_neg hb]
        cases hmc : matchErrorCode (pyStrip l) with
        | none =>
            simp only [true_iff]
            exact ⟨l, List.mem_cons_self _ _, hb, hmc⟩
        | some c =>
            cases hp : parseLines rest with
            | none =>
                simp only [true_iff]
                obtain ⟨l', hm, hnb, hnm⟩ := (ih).mp hp
                exact ⟨l', List.mem_cons_of_mem _ hm, hnb, hnm⟩
            | some cs =>
                simp only [reduceCtorEq, false_iff]
                rintro ⟨l', hm, hnb, hnm⟩
                rcases List.mem_cons.mp hm with rfl | hm'
                · rw [hmc] at hnm
                  exact Option.noConfusion hnm
                · have : parseLines rest = none := (ih).mpr ⟨l', hm', hnb, hnm⟩
                  rw [hp] at this
                  exact Option.noConfusion this

theorem parseLines_mem : ∀ (ls : List (List Char)) (r : List Cat),
    parseLines ls = some r →
      ∀ c, (c ∈ r ↔ ∃ l, l ∈ ls ∧ matchErrorCode (pyStrip l) = some c) := by
  intro ls
  induction ls with
  | nil =>
      intro r hr c
      obtain rfl : ([] : List Cat) = r := Option.some.inj hr
      simp
  | cons l rest ih =>
      intro r hr c
      simp only [parseLines] at hr
      by_cases hb : pyStrip l = []
      · rw [if_pos hb] at hr
        rw [ih r hr c]
        constructor
        · rintro ⟨l', hm, hnm⟩
          exact ⟨l', List.mem_cons_of_mem _ hm, hnm⟩
        · rintro ⟨l', hm, hnm⟩
          rcases List.mem_cons.mp hm with rfl | hm'
          · rw [hb, matchErrorCode_nil] at hnm
            exact Option.noConfusion hnm
          · exact ⟨l', hm', hnm⟩
      · rw [if_neg hb] at hr
        cases hmc : matchErrorCode (pyStrip l) with
        | none => rw [hmc] at hr; exact Option.noConfusion hr
        | some c0 =>
            rw [hmc] at hr
            cases hp : parseLines rest with
            | none => rw [hp] at hr; exact Option.noConfusion hr
            | some cs =>
                rw [hp] at hr
                obtain rfl : c0 :: cs = r := Option.some.inj hr
                constructor
                · intro hcr
                  rcases List.mem_cons.mp hcr with rfl | hm'
                  · exact ⟨l, List.mem_cons_self _ _, hmc⟩
                  · obtain ⟨l', hml, hnm⟩ := (ih cs hp c).mp hm'
                    exact ⟨l', List.mem_cons_of_mem _ hml, hnm⟩
                · rintro ⟨l', hml, hnm⟩
                  rcases List.mem_cons.mp hml with rfl | hml'
                  · rw [hmc] at hnm
                    obtain rfl : c0 = c := Option.some.inj hnm
                    exact List.mem_cons_self _ _
                  · exact List.mem_cons_of_mem _
                      ((ih cs hp c).mpr ⟨l', hml', hnm⟩)

theorem rangeDown_eq_map (k : Nat) :
    rangeDown k = (List.range k).map (fun j => k - j) := by
  induction k with
  | zero => simp [rangeDown]
  | succ k ih =>
      rw [List.range_succ_eq_map]
      simp only [List.map_cons, List.map_map, Nat.sub_zero, rangeDown]
      congr 1
      rw [ih]
      apply List.map_congr_left
      intro j hj
      simp [Nat.succ_sub_succ]

theorem pyRange_one (k : Nat) :
    pyRange 1 k = (List.range (k - 1)).map (fun j => j + 1) := by
  have h : (fun j => 1 + j) = (fun j => j + 1) := funext fun j => Nat.add_comm 1 j
  rw [pyRange, h]

/-- The candidate sequence claimed for the line-based strategy (phase one
yields the prefixes of the first 1..n-1 lines): a spec-side rendering, to
be compared with `line_based_shrinking` as read off the source. -/
def line_based_shrinking_claimed (s : PyStr) : List PyStr :=
  let lines := splitNl s
  let n := lines.length
  ((List.range (n - 1)).map (fun j => joinNl (lines.take (j + 1))))
  ++ ((List.range (n - 1)).map (fun j => joinNl (lines.drop (n - 1 - j))))
  ++ (((List.range (n / 2)).map (fun j => n / 2 - j)).flatMap (fun dl =>
        (List.range n).map
          (fun i => joinNl (lines.take i ++ lines.drop (i + dl)))))

/-- The amended candidate sequence: identical to the claimed one except
that phase one stops at the prefix of the first n-2 lines (the code's
`range(1, len(lines) - 1)` never yields the n-1 line prefix). -/
def line_based_shrinking_amended (s : PyStr) : List PyStr :=
  let lines := splitNl s
  let n := lines.length
  ((List.range (n - 2)).map (fun j => joinNl (lines.take (j + 1))))
  ++ ((List.range (n - 1)).map (fun j => joinNl (lines.drop (n - 1 - j))))
  ++ (((List.range (n / 2)).map (fun j => n / 2 - j)).flatMap (fun dl =>
        (List.range n).map
          (fun i => joinNl (lines.take i ++ lines.drop (i + dl)))))

/-- Claim C2 (amended): for every text with line split of length n, the
line-based strategy yields, in order, the prefixes made of the first
1..n-2 lines in increasing length (not 1..n-1 as claimed: the n-1 line
prefix is never yielded), then the suffixes `lines[k:]` for k = n-1 down
to 1, then for each deletion length L from n/2 down to 1 and every start
index i in 0..n-1 the text with `lines[i:i+L]` removed. -/
theorem line_based_shrinking_eq_amended (s : PyStr) :
    line_based_shrinking s = line_based_shrinking_amended s := by
  simp only [line_based_shrinking, line_based_shrinking_amended]
  rw [pyRange_one, rangeDown_eq_map, rangeDown_eq_map, List.map_map,
    List.map_map]
  rfl

/-- Claim C10: a text containing no newline splits into exactly one line
and the line-based strategy yields no candidates at all for it — all three
phases have empty ranges. -/
theorem line_based_shrinking_single_line (s : PyStr) (h : '\n' ∉ s) :
    (splitNl s).length = 1 ∧ line_based_shrinking s = [] := by
  have hs := splitNl_no_newline h
  refine ⟨by rw [hs]; rfl, ?_⟩
  simp only [line_based_shrinking, hs, List.length_singleton]
  norm_num [pyRange, rangeDown]

theorem note_source_frame (st : DState) (s : PyStr) :
    ((note_source st s).writes, (note_source st s).examplesFS,
      (note_source st s).best_examples, (note_source st s).output,
      (note_source st s).errors_cache, (note_source st s).toolCalls)
    = (st.writes, st.examplesFS, st.best_examples, st.output,
      st.errors_cache, st.toolCalls) := by
  simp only [note_source]
  split_ifs <;> rfl

theorem errors_in_source_frame (classify : PyStr → List Cat) (st : DState)
    (s : PyStr) :
    ((errors_in_source classify st s).2.writes,
      (errors_in_source classify st s).2.examplesFS,
      (errors_in_source classify st s).2.output)
    = (st.writes, st.examplesFS, st.output) := by
  simp only [errors_in_source]
  cases hget : alistGet s st.errors_cache with
  | some r => rfl
  | none =>
      dsimp only
      simp only [note_source]
      split_ifs <;> rfl

theorem driver_note_frame : ∀ (st : DState) (s : PyStr),
    ((note_source st s).writes, (note_source st s).examplesFS)
      = (st.writes, st.examplesFS) := by
  intro st s
  simp only [note_source]
  split_ifs <;> rfl

theorem driver_isExample_frame (classify : PyStr → List Cat) (error : Cat) :
    ∀ (st : DState) (t : PyStr),
      (((driverIsExample classify error st t).2).writes,
        ((driverIsExample classify error st t).2).examplesFS)
      = (st.writes, st.examplesFS) := by
  intro st t
  simp only [driverIsExample, errors_in_source]
  cases hget : alistGet t st.errors_cache with
  | some r => rfl
  | none =>
      dsimp only
      simp only [note_source]
      split_ifs <;> rfl

theorem find_minimal_driver_frame (classify : PyStr → List Cat)
    (isValid : PyStr → Bool) (error : Cat) (maxSize : Nat) (st : DState)
    (source : PyStr) :
    ((find_minimal_example_from_source isValid note_source
        (driverIsExample classify error) maxSize st source).st.writes,
      (find_minimal_example_from_source isValid note_source
        (driverIsExample classify error) maxSize st source).st.examplesFS)
    = (st.writes, st.examplesFS) :=
  find_minimal_state isValid note_source (driverIsExample classify error)
    (fun st => (st.writes, st.examplesFS)) driver_note_frame
    (driver_isExample_frame classify error) maxSize st source

/-- The writes made, in chronological order, to the persisted example file
of category `e`. -/
def writesFor (e : Cat) (st : DState) : List (Cat × PyStr) :=
  st.writes.filter (fun w => decide (w.1 = e))

/-- Invariant tying the write trace for a category to the current content
of its persisted example file: write lengths never increase along the
trace, and the file holds the last write (when there has been one). -/
def writeInv (e : Cat) (st : DState) : Prop :=
  List.Chain' (fun a b => b.2.length ≤ a.2.length) (writesFor e st) ∧
  ∀ w, (writesFor e st).getLast? = some w →
    alistGet e st.examplesFS = some w.2

theorem writeInv_congr {st st' : DState} (e : Cat)
    (hw : st'.writes = st.writes) (hf : st'.examplesFS = st.examplesFS)
    (h : writeInv e st) : writeInv e st' := by
  unfold writeInv writesFor at h ⊢
  rw [hw, hf]
  exact h

theorem writeInv_write (e error : Cat) (st : DState) (c : PyStr)
    (hinv : writeInv e st)
    (hok : ∀ existing, alistGet error st.examplesFS = some existing →
      c.length < existing.length) :
    writeInv e { st with
      examplesFS := alistSet error c st.examplesFS,
      writes := st.writes ++ [(error, c)] } := by
  obtain ⟨hchain, hlast⟩ := hinv
  by_cases he : error = e
  · subst he
    have hw : writesFor error { st with
        examplesFS := alistSet error c st.examplesFS,
        writes := st.writes ++ [(error, c)] }
        = writesFor error st ++ [(error, c)] := by
      simp [writesFor, List.filter_append]
    constructor
    · rw [hw, List.chain'_append]
      refine ⟨hchain, List.chain'_singleton _, ?_⟩
      intro x hx y hy
      obtain rfl : (error, c) = y := by simpa using hy
      have hfile := hlast x hx
      exact Nat.le_of_lt (hok x.2 hfile)
    · intro w hwl
      rw [hw, List.getLast?_concat] at hwl
      obtain rfl : (error, c) = w := Option.some.inj hwl
      exact alistGet_set_self error c st.examplesFS
  · have hw : writesFor e { st with
        examplesFS := alistSet error c st.examplesFS,
        writes := st.writes ++ [(error, c)] }
        = writesFor e st := by
      simp [writesFor, List.filter_append, he]
    constructor
    · rw [hw]
      exact hchain
    · intro w hwl
      rw [hw] at hwl
      have := hlast w hwl
      rw [alistGet_set_ne c st.examplesFS (fun hh => he hh.symm)]
      exact this

theorem note_source_writes (st : DState) (s : PyStr) :
    (note_source st s).writes = st.writes := by
  simp only [note_source]
  split_ifs <;> rfl

theorem note_source_examplesFS (st : DState) (s : PyStr) :
    (note_source st s).examplesFS = st.examplesFS := by
  simp only [note_source]
  split_ifs <;> rfl

theorem find_minimal_driver_writes (classify : PyStr → List Cat)
    (isValid : PyStr → Bool) (error : Cat) (maxSize : Nat) (st : DState)
    (source : PyStr) :
    (find_minimal_example_from_source isValid note_source
      (driverIsExample classify error) maxSize st source).st.writes
      = st.writes :=
  congrArg Prod.fst
    (find_minimal_driver_frame classify isValid error maxSize st source)

theorem find_minimal_driver_examplesFS (classify : PyStr → List Cat)
    (isValid : PyStr → Bool) (error : Cat) (maxSize : Nat) (st : DState)
    (source : PyStr) :
    (find_minimal_example_from_source isValid note_source
      (driverIsExample classify error) maxSize st source).st.examplesFS
      = st.examplesFS :=
  congrArg Prod.snd
    (find_minimal_driver_frame classify isValid error maxSize st source)

theorem writeInv_write_step (classify : PyStr → List Cat)
    (isValid : PyStr → Bool) (maxSize : Nat) (e error : Cat) (st2 : DState)
    (source : PyStr) (hinv : writeInv e st2)
    (hok : ∀ existing, alistGet error st2.examplesFS = some existing →
      (find_minimal_example_from_source isValid note_source
        (driverIsExample classify error) maxSize st2 source).best.length
        < existing.length) :
    writeInv e { (find_minimal_example_from_source isValid note_source
        (driverIsExample classify error) maxSize st2 source).st with
      examplesFS := alistSet error
        (find_minimal_example_from_source isValid note_source
          (driverIsExample classify error) maxSize st2 source).best
        (find_minimal_example_from_source isValid note_source
          (driverIsExample classify error) maxSize st2 source).st.examplesFS,
      writes := (find_minimal_example_from_source isValid note_source
          (driverIsExample classify error) maxSize st2 source).st.writes
        ++ [(error, (find_minimal_example_from_source isValid note_source
          (driverIsExample classify error) maxSize st2 source).best)] } := by
  have hw := find_minimal_driver_writes classify isValid error maxSize
    st2 source
  have hf := find_minimal_driver_examplesFS classify isValid error maxSize
    st2 source
  have hinvE : writeInv e (find_minimal_example_from_source isValid
      note_source (driverIsExample classify error) maxSize st2 source).st :=
    writeInv_congr e hw hf hinv
  refine writeInv_write e error _ _ hinvE ?_
  intro existing hex
  rw [hf] at hex
  exact hok existing hex

theorem driverScan_writeInv (classify : PyStr → List Cat)
    (isValid : PyStr → Bool) (maxSize : Nat) (e : Cat) :
    ∀ (items : List (Cat × PyStr)) (st : DState) (changed : Bool)
      (st' : DState) (changed' : Bool),
      writeInv e st →
      driverScan classify isValid maxSize items st changed
        = some (st', changed') →
      writeInv e st' := by
  intro items
  induction items with
  | nil =>
      intro st changed st' changed' hinv h
      simp only [driverScan] at h
      have hp := Option.some.inj h
      obtain rfl : st = st' := congrArg Prod.fst hp
      exact hinv
  | cons p rest ih =>
      obtain ⟨error, source⟩ := p
      intro st changed st' changed' hinv h
      simp only [driverScan] at h
      have hinv1 : writeInv e (note_source st source) :=
        writeInv_congr e (note_source_writes st source)
          (note_source_examplesFS st source) hinv
      cases hOpt : alistGet error (note_source st source).examplesFS with
      | some existing =>
          rw [hOpt] at h
          dsimp only at h
          split_ifs at h with hlen hg
          · exact ih _ _ _ _ hinv1 h
          · refine ih _ _ _ _ ?_ h
            refine writeInv_write_step classify isValid maxSize e error _
              source (writeInv_congr e rfl rfl hinv1) ?_
            intro existing' hex
            have : alistGet error (note_source st source).examplesFS
                = some existing' := hex
            rw [hOpt] at this
            obtain rfl : existing = existing' := Option.some.inj this
            exact Nat.lt_of_le_of_lt hg (Nat.lt_of_not_le hlen)
      | none =>
          rw [hOpt] at h
          dsimp only at h
          split_ifs at h with hg
          · refine ih _ _ _ _ ?_ h
            refine writeInv_write_step classify isValid maxSize e error _
              source (writeInv_congr e rfl rfl hinv1) ?_
            intro existing' hex
            have : alistGet error (note_source st source).examplesFS
                = some existing' := hex
            rw [hOpt] at this
            exact Option.noConfusion this

theorem driverLoop_writeInv (classify : PyStr → List Cat)
    (isValid : PyStr → Bool) (maxSize : Nat) (e : Cat) :
    ∀ (fuel : Nat) (st st' : DState),
      writeInv e st →
      driverLoop classify isValid maxSize fuel st = some st' →
      writeInv e st' := by
  intro fuel
  induction fuel with
  | zero =>
      intro st st' hinv h
      simp only [driverLoop] at h
      obtain rfl : st = st' := Option.some.inj h
      exact hinv
  | succ fuel ih =>
      intro st st' hinv h
      simp only [driverLoop] at h
      cases hscan : driverScan classify isValid maxSize st.best_examples
          st false with
      | none => rw [hscan] at h; exact Option.noConfusion h
      | some pr =>
          rw [hscan] at h
          obtain ⟨st1, changed⟩ := pr
          have hinv1 := driverScan_writeInv classify isValid maxSize e
            st.best_examples st false st1 changed hinv hscan
          dsimp only at h
          split_ifs at h with hc
          · exact ih _ _ hinv1 h
          · obtain rfl : st1 = st' := Option.some.inj h
            exact hinv1

theorem investigate_writeInv (classify : PyStr → List Cat)
    (isValid : PyStr → Bool) (maxSize : Nat) (fuel : Nat) (st : DState)
    (source : PyStr) (e : Cat) (st' : DState) (hinv : writeInv e st)
    (h : investigate_pep8_status classify isValid maxSize fuel st source
      = some st') : writeInv e st' := by
  simp only [investigate_pep8_status] at h
  split_ifs at h with hv hclean
  · obtain rfl := Option.some.inj h
    exact writeInv_congr e rfl rfl hinv
  · obtain rfl := Option.some.inj h
    refine writeInv_congr e ?_ ?_ hinv
    · show (errors_in_source classify _ source).2.writes = st.writes
      exact congrArg Prod.fst (errors_in_source_frame classify _ source)
    · show (errors_in_source classify _ source).2.examplesFS = st.examplesFS
      exact congrArg Prod.fst
        (congrArg Prod.snd (errors_in_source_frame classify _ source))
  · refine driverLoop_writeInv classify isValid maxSize e fuel _ _ ?_ h
    refine writeInv_congr e ?_ ?_ hinv
    · show (errors_in_source classify _ source).2.writes = st.writes
      exact congrArg Prod.fst (errors_in_source_frame classify _ source)
    · show (errors_in_source classify _ source).2.examplesFS = st.examplesFS
      exact congrArg Prod.fst
        (congrArg Prod.snd (errors_in_source_frame classify _ source))

theorem driverScan_isSome (classify : PyStr → List Cat)
    (isValid : PyStr → Bool) (maxSize : Nat) :
    ∀ (items : List (Cat × PyStr)) (st : DState) (changed : Bool),
      (driverScan classify isValid maxSize items st changed).isSome
        = true := by
  intro items
  induction items with
  | nil => intro st changed; simp [driverScan]
  | cons p rest ih =>
      obtain ⟨error, source⟩ := p
      intro st changed
      simp only [driverScan]
      cases hOpt : alistGet error (note_source st source).examplesFS with
      | some existing =>
          dsimp only
          split_ifs with hlen hg
          · exact ih _ _
          · exact ih _ _
          · exact absurd (find_minimal_length_le isValid note_source
              (driverIsExample classify error) maxSize _ source) hg
      | none =>
          dsimp only
          rw [if_pos (find_minimal_length_le isValid note_source
            (driverIsExample classify error) maxSize _ source)]
          exact ih _ _

theorem driverLoop_isSome (classify : PyStr → List Cat)
    (isValid : PyStr → Bool) (maxSize : Nat) :
    ∀ (fuel : Nat) (st : DState),
      (driverLoop classify isValid maxSize fuel st).isSome = true := by
  intro fuel
  induction fuel with
  | zero => intro st; simp [driverLoop]
  | succ fuel ih =>
      intro st
      simp only [driverLoop]
      cases hscan : driverScan classify isValid maxSize st.best_examples
          st false with
      | none =>
          have := driverScan_isSome classify isValid maxSize
            st.best_examples st false
          rw [hscan] at this
          simp at this
      | some pr =>
          obtain ⟨st1, changed⟩ := pr
          dsimp only
          split_ifs with hc
          · exact ih _
          · rfl

theorem investigate_isSome (classify : PyStr → List Cat)
    (isValid : PyStr → Bool) (maxSize : Nat) (fuel : Nat) (st : DState)
    (source : PyStr) :
    (investigate_pep8_status classify isValid maxSize fuel st source).isSome
      = true := by
  simp only [investigate_pep8_status]
  split_ifs with hv hclean
  · rfl
  · rfl
  · exact driverLoop_isSome classify isValid maxSize fuel _

theorem note_source_best (st : DState) (s : PyStr) :
    (note_source st s).best_examples = st.best_examples := by
  simp only [note_source]
  split_ifs <;> rfl

theorem errors_in_source_fst_congr (classify : PyStr → List Cat)
    (s : PyStr) {st st' : DState} (h : st'.errors_cache = st.errors_cache) :
    (errors_in_source classify st' s).1
      = (errors_in_source classify st s).1 := by
  simp only [errors_in_source, h]
  cases alistGet s st.errors_cache <;> rfl

/-- Claim C3 (amended): when the text is valid and classifies to the empty
set, `investigate_pep8_status` prints `clean` after the header and leaves
the in-memory and persisted example registries and the example-write trace
untouched; but it is not free of filesystem changes: the source text is
archived into the recycling directory when not already present (this is
the only persistent filesystem change; the checker's temporary file is
removed on every path). -/
theorem investigate_clean_spec (classify : PyStr → List Cat)
    (isValid : PyStr → Bool) (maxSize fuel : Nat) (st : DState)
    (source : PyStr) (hv : isValid source = true)
    (hclean : (errors_in_source classify st source).1 = []) :
    ((investigate_pep8_status classify isValid maxSize fuel st
        source).getD st).best_examples = st.best_examples ∧
    ((investigate_pep8_status classify isValid maxSize fuel st
        source).getD st).examplesFS = st.examplesFS ∧
    ((investigate_pep8_status classify isValid maxSize fuel st
        source).getD st).writes = st.writes ∧
    ((investigate_pep8_status classify isValid maxSize fuel st
        source).getD st).output = Msg.clean :: Msg.header :: st.output ∧
    (((investigate_pep8_status classify isValid maxSize fuel st
        source).getD st).recycling = st.recycling ∨
      ((investigate_pep8_status classify isValid maxSize fuel st
        source).getD st).recycling = source :: st.recycling) := by
  have hne : ¬ (isValid source = false) := by simp [hv]
  have hclean0 : (errors_in_source classify
      { st with output := Msg.header :: st.output } source).1 = [] := by
    rw [@errors_in_source_fst_congr classify source st
      { st with output := Msg.header :: st.output } rfl]
    exact hclean
  simp only [investigate_pep8_status]
  rw [if_neg hne, if_pos hclean0, Option.getD_some]
  cases hget : alistGet source st.errors_cache with
  | some r0 =>
      have hget0 : alistGet source
          ({ st with output := Msg.header :: st.output } : DState).errors_cache
          = some r0 := hget
      simp only [errors_in_source, hget0]
      simp
  | none =>
      have hget0 : alistGet source
          ({ st with output := Msg.header :: st.output } : DState).errors_cache
          = none := hget
      have hcs : classify source = [] := by
        have h2 := hclean
        simp only [errors_in_source, hget] at h2
        exact h2
      simp only [errors_in_source, hget0]
      rw [hcs]
      simp only [updateBest, note_source]
      split_ifs with hmem
      · exact ⟨rfl, rfl, rfl, rfl, Or.inl rfl⟩
      · exact ⟨rfl, rfl, rfl, rfl, Or.inr rfl⟩

/-- Concrete objects for witnesses. -/
def valid0 : PyStr → Bool := fun _ => true

def src0 : PyStr := ['x', '=', '1']

def p0 : PyStr → Bool := fun s => decide ('x' ∈ s)

def e0 : Cat := ['E']

def classify0 : PyStr → List Cat := fun _ => []

def classify1 : PyStr → List Cat := fun s => if s = [] then [] else [e0]

def out0 : List Char := ['a', ' ', 'E', '1', ' ', 'x']

/-- Claim C1: for every source text, predicate and size floor, the result
of `find_minimal_example_from_source` is no longer than the source, and
when the source is valid and satisfies the predicate, so does the result
(the result is the source or an adopted candidate that passed both
checks). -/
theorem minimize_length_and_predicate_preservation
    (isValid p : PyStr → Bool) (maxSize : Nat) (source : PyStr) :
    (find_minimal_example_from_source isValid (fun u _ => u)
      (fun (u : Unit) t => (p t, u)) maxSize () source).best.length
      ≤ source.length ∧
    (isValid source = true → p source = true →
      isValid (find_minimal_example_from_source isValid (fun u _ => u)
        (fun (u : Unit) t => (p t, u)) maxSize () source).best = true ∧
      p (find_minimal_example_from_source isValid (fun u _ => u)
        (fun (u : Unit) t => (p t, u)) maxSize () source).best = true) := by
  constructor
  · exact find_minimal_length_le _ _ _ _ _ _
  · intro hv hp
    rcases find_minimal_pred isValid (fun u _ => u)
        (fun (u : Unit) t => (p t, u)) p (fun _ _ => rfl) maxSize () source
      with h | h
    · rw [h]
      exact ⟨hv, hp⟩
    · exact h

theorem minimize_length_and_predicate_preservation_witness :
    valid0 (find_minimal_example_from_source valid0 (fun u _ => u)
      (fun (u : Unit) t => (p0 t, u)) 0 () src0).best = true ∧
    p0 (find_minimal_example_from_source valid0 (fun u _ => u)
      (fun (u : Unit) t => (p0 t, u)) 0 () src0).best = true :=
  (minimize_length_and_predicate_preservation valid0 p0 0 src0).2
    rfl (by decide)

/-- Claim C2 counterexample: on the two-line text `"a\nb"` the code's
line-based strategy does not yield the sequence the claim describes (the
claimed phase one contains the one-line prefix `"a"`, which the code's
`range(1, len(lines) - 1)` never produces). -/
theorem line_based_shrinking_claimed_counterexample :
    line_based_shrinking ['a', '\n', 'b']
      ≠ line_based_shrinking_claimed ['a', '\n', 'b'] := by decide

/-- Claim C4: classifying the same text twice returns the same set, and
the second call leaves the whole state unchanged: in particular it does
not invoke the external checker again (`toolCalls`) and does not
re-archive (`recycling`). -/
theorem classify_cached_idempotent (classify : PyStr → List Cat)
    (isValid : PyStr → Bool) (st : DState) (T : PyStr)
    (_hv : isValid T = true) :
    errors_in_source classify (errors_in_source classify st T).2 T
      = errors_in_source classify st T ∧
    (errors_in_source classify
        (errors_in_source classify st T).2 T).2.toolCalls
      = (errors_in_source classify st T).2.toolCalls ∧
    (errors_in_source classify
        (errors_in_source classify st T).2 T).2.recycling
      = (errors_in_source classify st T).2.recycling := by
  have h := errors_in_source_idem classify st T
  exact ⟨h, congrArg (fun x => x.2.toolCalls) h,
    congrArg (fun x => x.2.recycling) h⟩

theorem classify_cached_idempotent_witness :
    errors_in_source classify1
        (errors_in_source classify1 initState src0).2 src0
      = errors_in_source classify1 initState src0 :=
  (classify_cached_idempotent classify1 valid0 initState src0 rfl).1

/-- Claim C5: on a cache miss, the best-example entry of every category
reported for the text is replaced exactly when no example is recorded or
the text is strictly shorter; consequently recorded example lengths never
increase across calls, and a recorded example always classifies to a set
containing its category. -/
theorem classify_cached_best_examples (classify : PyStr → List Cat)
    (st : DState) (source : PyStr) :
    (alistGet source st.errors_cache = none →
      ∀ c, alistGet c ((errors_in_source classify st source).2).best_examples
        = if c ∈ classify source ∧
            bestUpdateTakes st.best_examples source c = true
          then some source else alistGet c st.best_examples) ∧
    (∀ c v v', alistGet c st.best_examples = some v →
      alistGet c ((errors_in_source classify st source).2).best_examples
        = some v' → v'.length ≤ v.length) ∧
    ((∀ c v, alistGet c st.best_examples = some v → c ∈ classify v) →
      ∀ c v, alistGet c ((errors_in_source classify st
          source).2).best_examples = some v → c ∈ classify v) := by
  refine ⟨?_, ?_, ?_⟩
  · intro hmiss c
    have hbe : ((errors_in_source classify st source).2).best_examples
        = updateBest source (classify source) st.best_examples := by
      simp only [errors_in_source, hmiss]
      rw [note_source_best]
    rw [hbe, alistGet_updateBest]
  · intro c v v' hv hv'
    cases hget : alistGet source st.errors_cache with
    | some r =>
        have hbe : ((errors_in_source classify st source).2).best_examples
            = st.best_examples := by
          simp only [errors_in_source, hget]
        rw [hbe, hv] at hv'
        obtain rfl : v = v' := Option.some.inj hv'
        exact Nat.le_refl _
    | none =>
        have hbe : ((errors_in_source classify st source).2).best_examples
            = updateBest source (classify source) st.best_examples := by
          simp only [errors_in_source, hget]
          rw [note_source_best]
        rw [hbe] at hv'
        exact alistGet_updateBest_mono source (classify source)
          st.best_examples c v v' hv hv'
  · intro hsound c v hv
    cases hget : alistGet source st.errors_cache with
    | some r =>
        have hbe : ((errors_in_source classify st source).2).best_examples
            = st.best_examples := by
          simp only [errors_in_source, hget]
        rw [hbe] at hv
        exact hsound c v hv
    | none =>
        have hbe : ((errors_in_source classify st source).2).best_examples
            = updateBest source (classify source) st.best_examples := by
          simp only [errors_in_source, hget]
          rw [note_source_best]
        rw [hbe] at hv
        exact alistGet_updateBest_sound classify source st.best_examples
          hsound c v hv

theorem classify_cached_best_examples_witness :
    alistGet e0 ((errors_in_source classify1 initState
      src0).2).best_examples = some src0 := by
  have h := (classify_cached_best_examples classify1 initState src0).1 rfl e0
  rw [h]
  decide

/-- Claim C6: `pep8` returns the empty set on a zero exit status (in
particular with no output); on a non-zero exit it parses every stripped
non-blank line against the `ERROR_CODE` shape, aborting (`none`) exactly
when some non-blank line fails to match, and otherwise returning exactly
the set of captured category tokens. -/
theorem pep8_output_parsing :
    (∀ out, pep8 (ToolOutcome.ok out) = some []) ∧
    (∀ out, pep8 (ToolOutcome.err out) = none ↔
      ∃ l, l ∈ splitNl out ∧ pyStrip l ≠ [] ∧
        matchErrorCode (pyStrip l) = none) ∧
    (∀ out r, pep8 (ToolOutcome.err out) = some r →
      ∀ c, (c ∈ r ↔ ∃ l, l ∈ splitNl out ∧
        matchErrorCode (pyStrip l) = some c)) := by
  refine ⟨fun out => rfl, fun out => ?_, fun out r h c => ?_⟩
  · exact parseLines_none_iff (splitNl out)
  · exact parseLines_mem (splitNl out) r h c

theorem pep8_output_parsing_witness :
    (['E', '1'] : Cat) ∈ [(['E', '1'] : Cat)] ↔
      ∃ l, l ∈ splitNl out0 ∧
        matchErrorCode (pyStrip l) = some ['E', '1'] :=
  pep8_output_parsing.2.2 out0 [['E', '1']] (by decide) ['E', '1']

/-- Claim C7: across the driver's fixed-point loop, successive writes to a
category's persisted example file never increase in length (each write is
no longer than the previously persisted content). -/
theorem example_file_writes_monotone (classify : PyStr → List Cat)
    (isValid : PyStr → Bool) (maxSize fuel : Nat) (st : DState)
    (source : PyStr) (e : Cat) (hw : st.writes = []) :
    List.Chain' (fun a b => b.2.length ≤ a.2.length)
      (writesFor e ((investigate_pep8_status classify isValid maxSize fuel
        st source).getD st)) := by
  have hinv : writeInv e st := by
    constructor
    · unfold writesFor
      rw [hw]
      simp
    · intro w hwl
      unfold writesFor at hwl
      rw [hw] at hwl
      simp at hwl
  have hs := investigate_isSome classify isValid maxSize fuel st source
  cases hres : investigate_pep8_status classify isValid maxSize fuel st
      source with
  | none =>
      rw [hres] at hs
      simp at hs
  | some st' =>
      rw [Option.getD_some]
      exact (investigate_writeInv classify isValid maxSize fuel st source e
        st' hinv hres).1

theorem example_file_writes_monotone_witness :
    initState.writes = [] ∧
    List.Chain' (fun a b => b.2.length ≤ a.2.length)
      (writesFor e0 ((investigate_pep8_status classify0 valid0 0 1 initState
        src0).getD initState)) :=
  ⟨rfl, example_file_writes_monotone classify0 valid0 0 1 initState src0
    e0 rfl⟩

/-- Claim C8: within one `find_minimal_example_from_source` call, no text
content is evaluated against `is_valid_source` or against the target
predicate more than once: both instrumented evaluation traces are free of
duplicates, for any state type, archiver and (stateful) predicate. -/
theorem minimize_dedup_evaluations (σ : Type) (isValid : PyStr → Bool)
    (note : σ → PyStr → σ) (isExample : σ → PyStr → Bool × σ)
    (maxSize : Nat) (st : σ) (source : PyStr) :
    (find_minimal_example_from_source isValid note isExample maxSize st
      source).vEvals.Nodup ∧
    (find_minimal_example_from_source isValid note isExample maxSize st
      source).pEvals.Nodup :=
  ⟨(find_minimal_evals isValid note isExample maxSize st source).1,
    (find_minimal_evals isValid note isExample maxSize st source).2.1⟩

/-- Claim C9: the driver's `assert len(example) <= len(source)` can never
fail: the shrink engine's result is never longer than its input for any
instantiation, so `investigate_pep8_status` always completes without an
assertion failure (`isSome`). -/
theorem driver_assert_unreachable :
    (∀ (σ : Type) (isValid : PyStr → Bool) (note : σ → PyStr → σ)
      (isExample : σ → PyStr → Bool × σ) (maxSize : Nat) (st : σ)
      (source : PyStr),
      (find_minimal_example_from_source isValid note isExample maxSize st
        source).best.length ≤ source.length) ∧
    (∀ (classify : PyStr → List Cat) (isValid : PyStr → Bool)
      (maxSize fuel : Nat) (st : DState) (source : PyStr),
      (investigate_pep8_status classify isValid maxSize fuel st
        source).isSome = true) :=
  ⟨fun _ isValid note isExample maxSize st source =>
    find_minimal_length_le isValid note isExample maxSize st source,
   fun classify isValid maxSize fuel st source =>
    investigate_isSome classify isValid maxSize fuel st source⟩

/-- Claim C3 counterexample: processing a clean file is not free of
filesystem changes: with an empty initial state, a valid source and a
classifier reporting no diagnostics, the run prints `clean` but the
recycling archive gains a file (the archived source text). -/
theorem clean_file_no_fs_change_counterexample :
    ((investigate_pep8_status classify0 valid0 0 1 initState
        src0).getD initState).output = [Msg.clean, Msg.header] ∧
    ((investigate_pep8_status classify0 valid0 0 1 initState
        src0).getD initState).recycling ≠ [] := by decide

theorem investigate_clean_spec_witness :
    ((investigate_pep8_status classify0 valid0 0 1 initState src0).getD
        initState).best_examples = initState.best_examples ∧
    ((investigate_pep8_status classify0 valid0 0 1 initState src0).getD
        initState).examplesFS = initState.examplesFS ∧
    ((investigate_pep8_status classify0 valid0 0 1 initState src0).getD
        initState).writes = initState.writes ∧
    ((investigate_pep8_status classify0 valid0 0 1 initState src0).getD
        initState).output = Msg.clean :: Msg.header :: initState.output ∧
    (((investigate_pep8_status classify0 valid0 0 1 initState src0).getD
        initState).recycling = initState.recycling ∨
      ((investigate_pep8_status classify0 valid0 0 1 initState src0).getD
        initState).recycling = src0 :: initState.recycling) :=
  investigate_clean_spec classify0 valid0 0 1 initState src0 rfl (by decide)

theorem line_based_shrinking_single_line_witness :
    ('\n' ∉ (['a', 'b'] : PyStr)) ∧ ((splitNl ['a', 'b']).length = 1 ∧
      line_based_shrinking ['a', 'b'] = []) :=
  ⟨by decide, line_based_shrinking_single_line ['a', 'b'] (by decide)⟩
